import Mathlib

/-!
Verification development for the `query-manager.js` highlight/search
subsystem: a shallow embedding of the module's pure core (normalization
pipeline with memoization, match location, `<mark>` rendering), of its
DOM-facing operations (`resetHighlights` / `highlightMatches` over a model
of `[data-highlight]` elements with an original-content snapshot table),
of the query store (`setQuery`), and of the `mixinQuerySync` target
aggregation logic.

Modelling conventions (documented once here):
* JS strings are Lean `String`s; character indices are code points
  (JS uses UTF-16 units; they agree on the BMP texts considered here).
* JS regular expressions built from a query term are modelled as literal
  patterns (terms containing regex metacharacters are outside the model);
  the `gi` flags are modelled by case-folded comparison and a
  last-index-advancing scan.  A zero-length pattern, on which the JS
  `exec` loop would not terminate, is modelled as matching once per
  position.
* `String.prototype.normalize('NFD')` is modelled by a decomposition
  table restricted to the Latin-1 precomposed letters exercised by the
  presets; `\p{Diacritic}` is modelled as the combining range
  U+0300–U+036F; `toLowerCase` as `Char.toLower` (ASCII; after NFD
  stripping only ASCII base letters remain in the modelled inputs).
* The DOM inside a `[data-highlight]` element is modelled as the list of
  its text nodes; `container` is the list of its (non-nested)
  `[data-highlight]` elements; the `WeakMap` original-HTML cache is the
  per-element `snap` field.  Node replacement is assumed to succeed (the
  `try/catch` around `replaceWith` handles detached nodes, which the
  model does not represent).
-/

set_option maxRecDepth 8192

namespace QueryManager

/-! ## Character-list string helpers

JS string primitives are modelled over `List Char` (Lean's `String`
position-based primitives are avoided so that all definitions evaluate by
kernel reduction). -/

/-- `String.prototype.trim` (JS trims Unicode whitespace; the model trims
`Char.isWhitespace`, which covers the whitespace in the inputs considered). -/
def jsTrim (s : String) : String :=
  String.mk (((s.toList.dropWhile Char.isWhitespace).reverse.dropWhile
    Char.isWhitespace).reverse)

/-- Splitting on single whitespace characters, keeping empty pieces
(`filter(Boolean)` removes them afterwards, giving `split(/\s+/)`
semantics). -/
def splitWsAux : List Char → List Char → List String
  | [], acc => [String.mk acc.reverse]
  | c :: cs, acc =>
      if c.isWhitespace then String.mk acc.reverse :: splitWsAux cs []
      else splitWsAux cs (c :: acc)

/-- `names.join('|')`. -/
def joinPipe : List String → String
  | [] => ""
  | [s] => s
  | s :: rest => s ++ "|" ++ joinPipe rest

/-! ## Normalization engine -/

/-- A JS transform function together with its `Function.prototype.name`
(`""` for anonymous arrow functions). -/
structure Transform where
  name : String
  fn : String → String

/-- The module-level `normalizationCache` `Map`, as an association list
(first match wins, entries are only added on miss). -/
abbrev NormCache := List (String × String)

/-- `fn.name || '[anon]'` from `applyNormalizers`. -/
def jsFnName (t : Transform) : String :=
  if t.name = "" then "[anon]" else t.name

/-- The memoization key `normalizers.map(fn => fn.name || '[anon]').join('|') + '::' + str`. -/
def cacheKey (normalizers : List Transform) (str : String) : String :=
  joinPipe (normalizers.map jsFnName) ++ "::" ++ str

/-- `Map.prototype.get`/`has` on the cache. -/
def lookupCache (key : String) : NormCache → Option String
  | [] => none
  | (k, v) :: rest => if k = key then some v else lookupCache key rest

/-- The uncached reduction `normalizers.reduce((acc, fn) => fn(acc), str)`. -/
def runTransforms (str : String) (normalizers : List Transform) : String :=
  normalizers.foldl (fun acc t => t.fn acc) str

/-- `applyNormalizers(str, normalizers)` with the cache passed explicitly:
on a hit the cached value is returned and the cache untouched, on a miss
the reduction runs and the result is stored under the key. -/
def applyNormalizers (str : String) (normalizers : List Transform) (cache : NormCache) :
    String × NormCache :=
  match lookupCache (cacheKey normalizers str) cache with
  | some v => (v, cache)
  | none =>
      let result := runTransforms str normalizers
      (result, (cacheKey normalizers str, result) :: cache)

/-! ## Match location (`getMarkedHTML` internals) -/

/-- JS `\w`, i.e. `[A-Za-z0-9_]`. -/
def isWordChar (c : Char) : Bool :=
  ('a' ≤ c && c ≤ 'z') || ('A' ≤ c && c ≤ 'Z') || ('0' ≤ c && c ≤ '9') || c = '_'

/-- Case-folded character comparison, modelling the regex `i` flag. -/
def foldEq (a b : Char) : Bool := a.toLower = b.toLower

/-- Does `term` occur, case-insensitively, at the start of `hay`? -/
def matchAtStart : List Char → List Char → Bool
  | [], _ => true
  | _ :: _, [] => false
  | t :: ts, h :: hs => foldEq h t && matchAtStart ts hs

/-- The lookaround pair `(?<!\w)…(?!\w)` used when `exactMatch` is set:
the character before index `i` (if any) and the character after the
match (if any) must not be word characters. -/
def exactBoundaryOk (hay : List Char) (i len : Nat) : Bool :=
  (decide (i = 0) || !isWordChar (hay.getD (i - 1) ' ')) &&
  (decide (hay.length ≤ i + len) || !isWordChar (hay.getD (i + len) ' '))

/-- One entry of the `matches` array: `{ index: m.index, length: term.length }`. -/
structure MatchRange where
  index : Nat
  length : Nat
deriving DecidableEq

/-- All matches of one term produced by the `re.exec` loop with the `g`
flag: scanning positions left to right, a position is accepted when it is
at or past the regex `lastIndex`, the term matches there, and (in exact
mode) the lookarounds hold; an accepted match advances `lastIndex` past
its end. -/
def termMatches (hay term : List Char) (exact : Bool) : List MatchRange :=
  ((List.range hay.length).foldl
    (fun st i =>
      if decide (st.2 ≤ i) && matchAtStart term (hay.drop i) &&
          (!exact || exactBoundaryOk hay i term.length)
      then (st.1 ++ [⟨i, term.length⟩], i + term.length)
      else st)
    (([] : List MatchRange), 0)).1

/-- The `for (const term of terms)` collection loop: per-term matches are
pushed in term order. -/
def collectMatches (hay : List Char) (exact : Bool) : List (List Char) → List MatchRange
  | [] => []
  | t :: ts => termMatches hay t exact ++ collectMatches hay exact ts

/-- `matches.sort((a, b) => a.index - b.index)`: a stable ascending sort
by start offset (ES2019 `Array.prototype.sort` is stable; insertion sort
with a non-strict comparison is stable). -/
def sortByIndex (ms : List MatchRange) : List MatchRange :=
  ms.insertionSort (fun a b => a.index ≤ b.index)

/-- The greedy overlap filter: starting from `lastEnd = 0`, keep a match
iff its start is at or past `lastEnd`, then move `lastEnd` to its end. -/
def dropOverlapping : Nat → List MatchRange → List MatchRange
  | _, [] => []
  | lastEnd, m :: ms =>
      if lastEnd ≤ m.index then m :: dropOverlapping (m.index + m.length) ms
      else dropOverlapping lastEnd ms

/-- The `nonOverlapping` array retained for marking: collect, sort by
start ascending, greedily drop overlaps. -/
def retainedRanges (normText : List Char) (terms : List (List Char)) (exact : Bool) :
    List MatchRange :=
  dropOverlapping 0 (sortByIndex (collectMatches normText exact terms))

/-- `text.substring(a, b)` (for the in-range, non-swapped uses that occur
here). -/
def substringStr (chars : List Char) (a b : Nat) : String :=
  String.mk ((chars.take b).drop a)

/-- The rendering loop: plain fragment up to each match, the matched slice
of the *original* text wrapped in `<mark>`, and the tail after the last
match. -/
def renderRanges (chars : List Char) : Nat → List MatchRange → String
  | cursor, [] => String.mk (chars.drop cursor)
  | cursor, m :: rest =>
      let rawMatch := (chars.drop m.index).take m.length
      substringStr chars cursor m.index ++ "<mark>" ++ String.mk rawMatch ++ "</mark>" ++
        renderRanges chars (m.index + rawMatch.length) rest

/-- `getMarkedHTML(text, terms, exact, normalizers)`: normalize the text
through the shared cache, locate matches on the normalized text, slice
the original text at the same offsets, and fall back to `text` when the
built string is empty (`result || text`). -/
def getMarkedHTML (text : String) (terms : List String) (exact : Bool)
    (normalizers : List Transform) (cache : NormCache) : String × NormCache :=
  let a := applyNormalizers text normalizers cache
  let ranges := retainedRanges a.1.toList (terms.map String.toList) exact
  let result := renderRanges text.toList 0 ranges
  ((if result = "" then text else result), a.2)

/-! ## Built-in presets

`String.prototype.normalize('NFD')` is modelled by `nfdChar`, a
decomposition table restricted to the precomposed Latin-1 letters the
presets and the verified scenarios exercise (other characters decompose
to themselves). -/

/-- NFD decomposition of a single character (restricted table). -/
def nfdChar (c : Char) : List Char :=
  if c = 'ä' then ['a', '̈'] else
  if c = 'ö' then ['o', '̈'] else
  if c = 'ü' then ['u', '̈'] else
  if c = 'Ä' then ['A', '̈'] else
  if c = 'Ö' then ['O', '̈'] else
  if c = 'Ü' then ['U', '̈'] else
  if c = 'á' then ['a', '́'] else
  if c = 'à' then ['a', '̀'] else
  if c = 'é' then ['e', '́'] else
  if c = 'è' then ['e', '̀'] else
  if c = 'ê' then ['e', '̂'] else
  if c = 'ç' then ['c', '̧'] else
  if c = 'ñ' then ['n', '̃'] else [c]

/-- `s.normalize('NFD')` (modelled). -/
def nfdNormalize (s : String) : String :=
  String.mk (s.toList.map nfdChar).flatten

/-- The combining-diacritic range matched by `/\p{Diacritic}/gu`
(modelled as U+0300–U+036F). -/
def isCombiningDiacritic (c : Char) : Bool :=
  decide (0x300 ≤ c.toNat) && decide (c.toNat ≤ 0x36F)

/-- `s.replace(/\p{Diacritic}/gu, '')` (modelled). -/
def stripDiacritics (s : String) : String :=
  String.mk (s.toList.filter (fun c => !isCombiningDiacritic c))

/-- Character-by-character replacement of `c` by the string `r`. -/
def replaceCharList (c : Char) (r : List Char) : List Char → List Char
  | [] => []
  | ch :: rest =>
      if ch = c then r ++ replaceCharList c r rest
      else ch :: replaceCharList c r rest

/-- `s.replace(/c/g, r)` for a single-character pattern. -/
def replaceChar (c : Char) (r : String) (s : String) : String :=
  String.mk (replaceCharList c r.toList s.toList)

/-- `s.toLowerCase()` (modelled as ASCII lowercasing). -/
def toLowerString (s : String) : String := String.mk (s.toList.map Char.toLower)

/-- `[^a-z0-9]` with the `i` flag, i.e. ASCII alphanumerics survive
`s.replace(/[^a-z0-9]/gi, '')`. -/
def isAsciiAlnum (c : Char) : Bool :=
  ('a' ≤ c && c ≤ 'z') || ('A' ≤ c && c ≤ 'Z') || ('0' ≤ c && c ≤ '9')

/-- The named function `defaultNormalize`: NFD decompose, strip combining
diacritics, transliterate ß/ä/ö/ü, lowercase. -/
def defaultNormalize (s : String) : String :=
  toLowerString
    (replaceChar 'ü' "ue"
      (replaceChar 'ö' "oe"
        (replaceChar 'ä' "ae"
          (replaceChar 'ß' "ss" (stripDiacritics (nfdNormalize s))))))

/-- The `strict` preset: eight anonymous arrow functions (their JS
`name` is the empty string). -/
def strictSteps : List Transform :=
  [⟨"", fun s => nfdNormalize s⟩,
   ⟨"", fun s => stripDiacritics s⟩,
   ⟨"", fun s => replaceChar 'ß' "ss" s⟩,
   ⟨"", fun s => replaceChar 'ä' "ae" s⟩,
   ⟨"", fun s => replaceChar 'ö' "oe" s⟩,
   ⟨"", fun s => replaceChar 'ü' "ue" s⟩,
   ⟨"", fun s => String.mk (s.toList.filter isAsciiAlnum)⟩,
   ⟨"", fun s => toLowerString s⟩]

/-- The `normalizerPresets` registry: a plain JS object used as a string
map, modelled as an association list where property assignment conses a
new binding in front (first match wins on lookup). -/
abbrev PresetMap := List (String × List Transform)

/-- The own-key component of the property read `normalizerPresets[name]`.
Being a plain object literal, the registry also inherits from
`Object.prototype`; `readPresetProp` below models the full read
including that chain. -/
def lookupPreset (name : String) : PresetMap → Option (List Transform)
  | [] => none
  | (k, v) :: rest => if k = name then some v else lookupPreset name rest

/-- The registry's initial contents. -/
def normalizerPresets : PresetMap :=
  [("default", [⟨"defaultNormalize", defaultNormalize⟩]),
   ("strict", strictSteps)]

/-- `normalizerPresets.default` as read by `resolveNormalizers`. -/
def defaultPreset (presets : PresetMap) : List Transform :=
  (lookupPreset "default" presets).getD []

/-! ## Preset registration -/

/-- One element of the `steps` argument: either a JS function or some
other value (`typeof fn !== 'function'`). -/
inductive StepItem where
  | callable (t : Transform)
  | notCallable
deriving Inhabited

/-- `typeof fn === 'function'`. -/
def StepItem.isCallable : StepItem → Bool
  | .callable _ => true
  | .notCallable => false

/-- The `steps` argument of `registerNormalizerPreset`: an array of
values, or some non-array value (`!Array.isArray(steps)`). -/
inductive StepsInput where
  | arr (items : List StepItem)
  | notArray

/-- The transform functions held by an all-callable steps array. -/
def stepsTransforms (items : List StepItem) : List Transform :=
  items.filterMap (fun s => match s with
    | .callable t => some t
    | .notCallable => none)

/-- Outcome of a successful registration: the updated registry and
whether the overwrite warning was logged. -/
structure RegisterResult where
  presets : PresetMap
  warned : Bool

/-- Did the call throw? -/
def isThrow : Except String RegisterResult → Bool
  | .error _ => true
  | .ok _ => false

/-- `registerNormalizerPreset(name, steps)`: throws when `steps` is not
an array or some element is not a function; otherwise warns when `name`
is already bound (any stored preset array is truthy) and overwrites. -/
def registerNormalizerPreset (presets : PresetMap) (name : String) (steps : StepsInput) :
    Except String RegisterResult :=
  match steps with
  | .notArray => .error "Normalizer preset must be an array of functions"
  | .arr items =>
      if items.any (fun fn => !fn.isCallable) then
        .error "Normalizer preset must be an array of functions"
      else
        .ok ⟨(name, stepsTransforms items) :: presets, (lookupPreset name presets).isSome⟩

/-- Spec-side predicate, following the spec's words for C7: `steps` is a
non-empty array whose elements are all callables. -/
def specNonEmptyArrayOfCallables : StepsInput → Bool
  | .arr items => !items.isEmpty && items.all StepItem.isCallable
  | .notArray => false

/-- Code-side validity: an array (possibly empty) whose elements are all
callables — exactly the complement of the code's throw condition. -/
def isArrayOfCallables : StepsInput → Bool
  | .arr items => items.all StepItem.isCallable
  | .notArray => false

/-! ## Normalizer resolution -/

/-- One element of an array-valued normalizer spec. -/
inductive NormalizerItem where
  | str (name : String)
  | fnItem (t : Transform)
  | otherItem

/-- The `normalizers` option: `undefined`/other falsy values, a preset
name, a single function, an array of names/functions/other values, or
some other truthy non-string non-function non-array value. -/
inductive NormalizerSpec where
  | undef
  | str (name : String)
  | fnSpec (t : Transform)
  | arr (items : List NormalizerItem)
  | objOther

/-- JS truthiness test `!input` on a normalizer spec (arrays and objects
are always truthy; the empty string is falsy). -/
def isFalsySpec : NormalizerSpec → Bool
  | .undef => true
  | .str s => s = ""
  | _ => false

/-- One step of the `flatMap` in `resolveNormalizers`: a string naming a
registered preset contributes that preset, a function contributes itself,
anything else contributes nothing. -/
def resolveItem (presets : PresetMap) : NormalizerItem → List Transform
  | .str s =>
      match lookupPreset s presets with
      | some l => l
      | none => []
  | .fnItem t => [t]
  | .otherItem => []

/-- `input.flatMap(item => …)`. -/
def resolveItems (presets : PresetMap) : List NormalizerItem → List Transform
  | [] => []
  | i :: is => resolveItem presets i ++ resolveItems presets is

/-- `resolveNormalizers(input)`: falsy → default preset; a preset name →
that preset or the default when unknown; a function → a singleton chain;
an array → the flatMap above; anything else → the default preset.

The string branch here uses the own-key read `lookupPreset`, adequate
wherever the spec is not a string or names an own key; `resolveStringSpec`
below models that branch under the full property read with the
`Object.prototype` chain, where the two diverge at inherited names. -/
def resolveNormalizers (input : NormalizerSpec) (presets : PresetMap) : List Transform :=
  if isFalsySpec input then defaultPreset presets
  else
    match input with
    | .undef => defaultPreset presets
    | .str s => (lookupPreset s presets).getD (defaultPreset presets)
    | .fnSpec t => [t]
    | .arr items => resolveItems presets items
    | .objOther => defaultPreset presets

/-! ### The registry's prototype chain

`normalizerPresets` is a plain object literal, so the property read
`normalizerPresets[name]` falls through to `Object.prototype` when
`name` is not an own key: at `"toString"`, `"constructor"`, `"valueOf"`
and the other inherited names it yields the inherited member — a truthy
value that is not a preset array — so the `|| normalizerPresets.default`
fallback in `resolveNormalizers` is *not* taken there, and the value
flows on to `applyNormalizers`, whose `normalizers.map(fn => …)` then
throws a `TypeError`. -/

/-- The property names every plain object inherits from
`Object.prototype`. -/
def objectPrototypeProps : List String :=
  ["constructor", "hasOwnProperty", "isPrototypeOf", "propertyIsEnumerable",
   "toLocaleString", "toString", "valueOf", "__defineGetter__",
   "__defineSetter__", "__lookupGetter__", "__lookupSetter__", "__proto__"]

/-- Result of the full property read `normalizerPresets[name]`: an own
preset array, an `Object.prototype`-inherited member, or `undefined`. -/
inductive PresetRead where
  | own (chain : List Transform)
  | protoInherited
  | missing

/-- The full property read: own keys first, then the prototype chain
(`missing` is JS `undefined`). -/
def readPresetProp (name : String) (presets : PresetMap) : PresetRead :=
  match lookupPreset name presets with
  | some chain => .own chain
  | none =>
      if objectPrototypeProps.contains name then .protoInherited else .missing

/-- Outcome of the string branch of `resolveNormalizers` under the full
property read: a transform chain, or the inherited non-array member on
which the subsequent `applyNormalizers` crashes. -/
inductive StringResolution where
  | chain (ts : List Transform)
  | inheritedMember

/-- `if (!input) return default; … return normalizerPresets[input] ||
normalizerPresets.default` for a string `input`, with the prototype
chain: a truthy own preset array or the truthy inherited member
short-circuit the `||`; only `undefined` falls back to the default
chain. -/
def resolveStringSpec (name : String) (presets : PresetMap) : StringResolution :=
  if name = "" then .chain (defaultPreset presets)
  else
    match readPresetProp name presets with
    | .own chain => .chain chain
    | .protoInherited => .inheritedMember
    | .missing => .chain (defaultPreset presets)

/-! ## Query store -/

/-- The `HighlightOptions` record read by `highlightMatches`. -/
structure HighlightOptions where
  splitWords : Bool
  exactMatch : Bool
  normalizers : NormalizerSpec

/-- `options = {}`: every read yields a falsy value. -/
def defaultOptions : HighlightOptions := ⟨false, false, .undef⟩

/-- The module-scope `queryStore`/`queryOptions`/`listeners` maps.
Subscribed callbacks are modelled by opaque identifiers, kept in
subscription order. -/
structure QueryState where
  queryStore : List (String × String)
  queryOptions : List (String × HighlightOptions)
  listeners : List (String × List Nat)

/-- `Map.prototype.get` on an association list (insertion via cons,
first match wins). -/
def mapGet {α : Type} (k : String) : List (String × α) → Option α
  | [] => none
  | (k', v) :: rest => if k' = k then some v else mapGet k rest

/-- `Map.prototype.set`. -/
def mapSet {α : Type} (k : String) (v : α) (m : List (String × α)) : List (String × α) :=
  (k, v) :: m

/-- One synchronous subscriber invocation `cb(value, queryOptions.get(key))`. -/
structure NotifyCall where
  callbackId : Nat
  value : String
  options : Option HighlightOptions

/-- `setQuery(key, value, options)`: store the value, store the options
only when they are truthy, then invoke every subscriber for the key with
the value and the options currently stored for the key. -/
def setQuery (key value : String) (options : Option HighlightOptions) (st : QueryState) :
    QueryState × List NotifyCall :=
  let store' := mapSet key value st.queryStore
  let opts' :=
    match options with
    | some o => mapSet key o st.queryOptions
    | none => st.queryOptions
  let subs := (mapGet key st.listeners).getD []
  ({ st with queryStore := store', queryOptions := opts' },
   subs.map (fun cb => ⟨cb, value, mapGet key opts'⟩))

/-! ## DOM model and `highlightMatches` -/

/-- One `[data-highlight]` element: its current text nodes and its entry
in the `originalHTMLCache` weak map (`none` = never snapshotted). -/
structure HElem where
  nodes : List String
  snap : Option (List String)
deriving DecidableEq

/-- A container together with the shared normalization cache. -/
structure HighlightState where
  elems : List HElem
  cache : NormCache
deriving DecidableEq

/-- The body of the reset loop: `const original = originalHTMLCache.get(el);
if (original !== undefined) el.innerHTML = original;`. -/
def resetElem (e : HElem) : HElem :=
  match e.snap with
  | some original => { e with nodes := original }
  | none => e

/-- `resetHighlights(container)`: restore every element that has a
snapshot; leave the others untouched. -/
def resetHighlights (elems : List HElem) : List HElem :=
  elems.map resetElem

/-- The body of the first-encounter snapshot loop:
`if (!originalHTMLCache.has(el)) originalHTMLCache.set(el, el.innerHTML)`. -/
def snapElem (e : HElem) : HElem :=
  match e.snap with
  | some _ => e
  | none => { e with snap := some e.nodes }

/-- The snapshot pass over all `[data-highlight]` elements. -/
def snapshotOriginals (elems : List HElem) : List HElem :=
  elems.map snapElem

/-- Every element's snapshot equals its current content (the situation
right after a reset-and-snapshot phase). -/
def FreshElems (elems : List HElem) : Prop :=
  ∀ e ∈ elems, e.snap = some e.nodes

/-- `query.split(/\s+/).filter(Boolean)`. -/
def splitTerms (query : String) : List String :=
  (splitWsAux query.toList []).filter (fun s => s ≠ "")

/-- `terms.map(t => applyNormalizers(t, normalizers))`, threading the
shared cache left to right. -/
def normalizeTerms (normalizers : List Transform) :
    List String → NormCache → List String × NormCache
  | [], cache => ([], cache)
  | t :: rest, cache =>
      let a := applyNormalizers t normalizers cache
      let r := normalizeTerms normalizers rest a.2
      (a.1 :: r.1, r.2)

/-- The per-text-node loop of `highlightMatches`: empty text nodes are
skipped; otherwise the node is replaced by its marked HTML exactly when
that differs from the original text, and the container-wide `hasMatch`
flag is raised. -/
def markNodes (terms : List String) (exact : Bool) (normalizers : List Transform) :
    List String → NormCache → List String × NormCache × Bool
  | [], cache => ([], cache, false)
  | t :: rest, cache =>
      if t = "" then
        let r := markNodes terms exact normalizers rest cache
        (t :: r.1, r.2.1, r.2.2)
      else
        let m := getMarkedHTML t terms exact normalizers cache
        let r := markNodes terms exact normalizers rest m.2
        if m.1 = t then (t :: r.1, r.2.1, r.2.2)
        else (m.1 :: r.1, r.2.1, true)

/-- The per-element loop of `highlightMatches`. -/
def markElems (terms : List String) (exact : Bool) (normalizers : List Transform) :
    List HElem → NormCache → List HElem × NormCache × Bool
  | [], cache => ([], cache, false)
  | e :: rest, cache =>
      let n := markNodes terms exact normalizers e.nodes cache
      let r := markElems terms exact normalizers rest n.2.1
      ({ e with nodes := n.1 } :: r.1, r.2.1, n.2.2 || r.2.2)

/-- `highlightMatches(container, query, options)`: reset, snapshot new
elements, bail out on an empty/whitespace-only query, otherwise split and
normalize the terms and mark every element's text nodes.  Returns the new
container/cache state and the `hasLocalMatch` flag. -/
def highlightMatches (presets : PresetMap) (st : HighlightState) (query : String)
    (options : HighlightOptions) : HighlightState × Bool :=
  let elems := snapshotOriginals (resetHighlights st.elems)
  if jsTrim query = "" then ({ elems := elems, cache := st.cache }, false)
  else
    let terms := if options.splitWords then splitTerms query else [query]
    let normalizers := resolveNormalizers options.normalizers presets
    let nt := normalizeTerms normalizers terms st.cache
    let mk := markElems nt.1 options.exactMatch normalizers elems nt.2
    ({ elems := mk.1, cache := mk.2.1 }, mk.2.2)

/-- A sequence of `highlightMatches` calls on one container. -/
def applyHighlightCalls (presets : PresetMap) :
    List (String × HighlightOptions) → HighlightState → HighlightState
  | [], st => st
  | (q, opts) :: rest, st =>
      applyHighlightCalls presets rest (highlightMatches presets st q opts).1

/-! ## `mixinQuerySync` target aggregation

A target component tree: each node is one `type: 'target'` component, its
`localMatch` field being the `hasLocalMatch` result `highlightMatches`
returns for that component's own render root.  Children of a node are the
nested targets whose (attribute-reflecting) host elements live inside the
node's render root.  Following the spec's ordering requirement, nested
targets process a notification and commit their reflected attributes
before their ancestor's subscription callback scans for
`[has-local-match]`. -/
inductive TargetTree where
  | node (localMatch : Bool) (children : List TargetTree)

/-- The four reflected boolean state attributes of a target. -/
structure TargetFlags where
  hasQuery : Bool
  hasLocalMatch : Bool
  hasShadowMatch : Bool
  hasAnyMatch : Bool
deriving DecidableEq

/-- A target tree after processing a notification. -/
inductive SyncedTree where
  | node (flags : TargetFlags) (children : List SyncedTree)

/-- Flags of the root target. -/
def SyncedTree.flags : SyncedTree → TargetFlags
  | .node f _ => f

/-- `renderRoot.querySelectorAll('[has-local-match]')` over a forest of
already-updated nested targets: does any element of the forest (at any
depth) carry a truthy `has-local-match` marker? -/
def hasLocalMarkerList : List SyncedTree → Bool
  | [] => false
  | .node f cs :: ts => f.hasLocalMatch || hasLocalMarkerList cs || hasLocalMarkerList ts

/-- Does any node of a source forest have a local match? -/
def forestAnyLocal : List TargetTree → Bool
  | [] => false
  | .node lm cs :: ts => lm || forestAnyLocal cs || forestAnyLocal ts

/-- Process one query notification over a forest of targets, children
before parents: each target sets `hasQuery` from the trimmed query,
`hasLocalMatch` from its own highlight pass, `hasShadowMatch` by scanning
its render root for descendant `[has-local-match]` markers, and
`hasAnyMatch` as the disjunction. -/
def notifyForest (query : String) : List TargetTree → List SyncedTree
  | [] => []
  | .node lm cs :: ts =>
      let cs' := notifyForest query cs
      .node ⟨decide (jsTrim query ≠ ""), lm, hasLocalMarkerList cs',
             lm || hasLocalMarkerList cs'⟩ cs' :: notifyForest query ts

/-- Process one query notification on a single target. -/
def notifyTarget (query : String) : TargetTree → SyncedTree
  | .node lm cs =>
      let cs' := notifyForest query cs
      .node ⟨decide (jsTrim query ≠ ""), lm, hasLocalMarkerList cs',
             lm || hasLocalMarkerList cs'⟩ cs'

/-- `hasAnyMatch == hasLocalMatch || hasShadowMatch` at one node. -/
def flagsOk (f : TargetFlags) : Bool :=
  f.hasAnyMatch == (f.hasLocalMatch || f.hasShadowMatch)

/-- `flagsOk` at every node of a synced forest. -/
def forestFlagsOk : List SyncedTree → Bool
  | [] => true
  | .node f cs :: ts => flagsOk f && forestFlagsOk cs && forestFlagsOk ts

/-! ## Properties referred to by the theorems -/

/-- `c'` preserves every association present in `c`. -/
def CacheExtends (c c' : NormCache) : Prop :=
  ∀ k v, lookupCache k c = some v → lookupCache k c' = some v

/-- Every cache entry stored under the key `applyNormalizers` uses for
`normalizers` holds the direct (uncached) normalization result. -/
def CacheConsistent (cache : NormCache) (normalizers : List Transform) : Prop :=
  ∀ s v, lookupCache (cacheKey normalizers s) cache = some v →
    v = runTransforms s normalizers

/-- Relation between the first-encounter original contents and the
current elements: each element either carries its original as its
snapshot, or was never snapshotted and still shows its original. -/
def SnapInv (orig : List (List String)) (es : List HElem) : Prop :=
  List.Forall₂ (fun o e => e.snap = some o ∨ (e.snap = none ∧ e.nodes = o)) orig es

/-! # Theorems -/

/-! ## Cache infrastructure -/

theorem cacheExtends_refl (c : NormCache) : CacheExtends c c := fun _ _ h => h

theorem cacheExtends_trans {a b c : NormCache} (h1 : CacheExtends a b)
    (h2 : CacheExtends b c) : CacheExtends a c :=
  fun k v h => h2 k v (h1 k v h)

theorem applyNormalizers_extends (s : String) (ns : List Transform) (c : NormCache) :
    CacheExtends c (applyNormalizers s ns c).2 := by
  unfold applyNormalizers
  cases h : lookupCache (cacheKey ns s) c with
  | some v => exact cacheExtends_refl c
  | none =>
      intro k w hw
      by_cases hk : cacheKey ns s = k
      · rw [← hk] at hw; rw [h] at hw; cases hw
      · show (if cacheKey ns s = k then some (runTransforms s ns) else lookupCache k c)
            = some w
        rw [if_neg hk]; exact hw

theorem applyNormalizers_lookup (s : String) (ns : List Transform) (c : NormCache) :
    lookupCache (cacheKey ns s) (applyNormalizers s ns c).2
      = some (applyNormalizers s ns c).1 := by
  unfold applyNormalizers
  cases h : lookupCache (cacheKey ns s) c with
  | some v => exact h
  | none =>
      show (if cacheKey ns s = cacheKey ns s then some (runTransforms s ns)
            else lookupCache (cacheKey ns s) c) = some (runTransforms s ns)
      rw [if_pos rfl]

theorem applyNormalizers_replay (s : String) (ns : List Transform) (c d : NormCache)
    (hx : CacheExtends (applyNormalizers s ns c).2 d) :
    applyNormalizers s ns d = ((applyNormalizers s ns c).1, d) := by
  have hd := hx _ _ (applyNormalizers_lookup s ns c)
  conv_lhs => unfold applyNormalizers
  rw [hd]

theorem normalizeTerms_extends (ns : List Transform) :
    ∀ (ts : List String) (c : NormCache), CacheExtends c (normalizeTerms ns ts c).2
  | [], c => cacheExtends_refl c
  | t :: rest, c => by
      have h1 := applyNormalizers_extends t ns c
      have h2 := normalizeTerms_extends ns rest (applyNormalizers t ns c).2
      simp only [normalizeTerms]
      exact cacheExtends_trans h1 h2

theorem normalizeTerms_replay (ns : List Transform) :
    ∀ (ts : List String) (c d : NormCache),
      CacheExtends (normalizeTerms ns ts c).2 d →
      normalizeTerms ns ts d = ((normalizeTerms ns ts c).1, d)
  | [], c, d, hx => by simp only [normalizeTerms]
  | t :: rest, c, d, hx => by
      have hx' : CacheExtends (normalizeTerms ns rest (applyNormalizers t ns c).2).2 d := hx
      have ha : applyNormalizers t ns d = ((applyNormalizers t ns c).1, d) :=
        applyNormalizers_replay t ns c d
          (cacheExtends_trans (normalizeTerms_extends ns rest _) hx')
      have hr := normalizeTerms_replay ns rest (applyNormalizers t ns c).2 d hx'
      simp only [normalizeTerms, ha, hr]

theorem getMarkedHTML_snd (t : String) (terms : List String) (ex : Bool)
    (ns : List Transform) (c : NormCache) :
    (getMarkedHTML t terms ex ns c).2 = (applyNormalizers t ns c).2 := rfl

theorem getMarkedHTML_extends (t : String) (terms : List String) (ex : Bool)
    (ns : List Transform) (c : NormCache) :
    CacheExtends c (getMarkedHTML t terms ex ns c).2 :=
  applyNormalizers_extends t ns c

theorem getMarkedHTML_replay (t : String) (terms : List String) (ex : Bool)
    (ns : List Transform) (c d : NormCache)
    (hx : CacheExtends (applyNormalizers t ns c).2 d) :
    getMarkedHTML t terms ex ns d = ((getMarkedHTML t terms ex ns c).1, d) := by
  have ha := applyNormalizers_replay t ns c d hx
  simp only [getMarkedHTML, ha]

theorem markNodes_extends (terms : List String) (ex : Bool) (ns : List Transform) :
    ∀ (nodes : List String) (c : NormCache),
      CacheExtends c (markNodes terms ex ns nodes c).2.1
  | [], c => cacheExtends_refl c
  | t :: rest, c => by
      by_cases ht : t = ""
      · have ih := markNodes_extends terms ex ns rest c
        simp only [markNodes, if_pos ht]
        exact ih
      · have h1 := getMarkedHTML_extends t terms ex ns c
        have ih := markNodes_extends terms ex ns rest (getMarkedHTML t terms ex ns c).2
        by_cases hm : (getMarkedHTML t terms ex ns c).1 = t
        · simp only [markNodes, if_neg ht, if_pos hm]
          exact cacheExtends_trans h1 ih
        · simp only [markNodes, if_neg ht, if_neg hm]
          exact cacheExtends_trans h1 ih

theorem markNodes_replay (terms : List String) (ex : Bool) (ns : List Transform) :
    ∀ (nodes : List String) (c d : NormCache),
      CacheExtends (markNodes terms ex ns nodes c).2.1 d →
      markNodes terms ex ns nodes d
        = ((markNodes terms ex ns nodes c).1, d, (markNodes terms ex ns nodes c).2.2)
  | [], c, d, hx => by simp only [markNodes]
  | t :: rest, c, d, hx => by
      by_cases ht : t = ""
      · have hx' : CacheExtends (markNodes terms ex ns rest c).2.1 d := by
          simpa only [markNodes, if_pos ht] using hx
        have ih := markNodes_replay terms ex ns rest c d hx'
        simp only [markNodes, if_pos ht, ih]
      · by_cases hm : (getMarkedHTML t terms ex ns c).1 = t
        · have hx' : CacheExtends
              (markNodes terms ex ns rest (getMarkedHTML t terms ex ns c).2).2.1 d := by
            simpa only [markNodes, if_neg ht, if_pos hm] using hx
          have hg := getMarkedHTML_replay t terms ex ns c d
            (cacheExtends_trans (markNodes_extends terms ex ns rest _) hx')
          have ih := markNodes_replay terms ex ns rest (getMarkedHTML t terms ex ns c).2 d hx'
          simp only [markNodes, if_neg ht, hg, ih, if_pos hm]
        · have hx' : CacheExtends
              (markNodes terms ex ns rest (getMarkedHTML t terms ex ns c).2).2.1 d := by
            simpa only [markNodes, if_neg ht, if_neg hm] using hx
          have hg := getMarkedHTML_replay t terms ex ns c d
            (cacheExtends_trans (markNodes_extends terms ex ns rest _) hx')
          have ih := markNodes_replay terms ex ns rest (getMarkedHTML t terms ex ns c).2 d hx'
          simp only [markNodes, if_neg ht, hg, ih, if_neg hm]

theorem markElems_extends (terms : List String) (ex : Bool) (ns : List Transform) :
    ∀ (es : List HElem) (c : NormCache),
      CacheExtends c (markElems terms ex ns es c).2.1
  | [], c => cacheExtends_refl c
  | e :: rest, c => by
      have h1 := markNodes_extends terms ex ns e.nodes c
      have ih := markElems_extends terms ex ns rest (markNodes terms ex ns e.nodes c).2.1
      simp only [markElems]
      exact cacheExtends_trans h1 ih

theorem markElems_replay (terms : List String) (ex : Bool) (ns : List Transform) :
    ∀ (es : List HElem) (c d : NormCache),
      CacheExtends (markElems terms ex ns es c).2.1 d →
      markElems terms ex ns es d
        = ((markElems terms ex ns es c).1, d, (markElems terms ex ns es c).2.2)
  | [], c, d, hx => by simp only [markElems]
  | e :: rest, c, d, hx => by
      have hx' : CacheExtends
          (markElems terms ex ns rest (markNodes terms ex ns e.nodes c).2.1).2.1 d := hx
      have hn := markNodes_replay terms ex ns e.nodes c d
        (cacheExtends_trans (markElems_extends terms ex ns rest _) hx')
      have ih := markElems_replay terms ex ns rest (markNodes terms ex ns e.nodes c).2.1 d hx'
      simp only [markElems, hn, ih]

/-! ## Snapshot/reset structure -/

theorem resetElem_fresh {e : HElem} (h : e.snap = some e.nodes) : resetElem e = e := by
  cases e with
  | mk nodes snap => simp only at h; simp [resetElem, h]

theorem resetHighlights_fresh : ∀ (es : List HElem), FreshElems es → resetHighlights es = es
  | [], _ => rfl
  | e :: rest, h => by
      have ht := resetHighlights_fresh rest (fun x hx => h x (List.mem_cons_of_mem e hx))
      simp only [resetHighlights, List.map_cons] at ht ⊢
      rw [resetElem_fresh (h e (List.mem_cons_self e rest)), ht]

theorem snapElem_fresh {e : HElem} (h : e.snap = some e.nodes) : snapElem e = e := by
  simp [snapElem, h]

theorem snapshotOriginals_fresh : ∀ (es : List HElem), FreshElems es → snapshotOriginals es = es
  | [], _ => rfl
  | e :: rest, h => by
      have ht := snapshotOriginals_fresh rest (fun x hx => h x (List.mem_cons_of_mem e hx))
      simp only [snapshotOriginals, List.map_cons] at ht ⊢
      rw [snapElem_fresh (h e (List.mem_cons_self e rest)), ht]

theorem fresh_snapshot_reset (xs : List HElem) :
    FreshElems (snapshotOriginals (resetHighlights xs)) := by
  intro e he
  simp only [snapshotOriginals, resetHighlights, List.map_map, List.mem_map] at he
  obtain ⟨a, _, rfl⟩ := he
  cases h : a.snap with
  | none => simp [Function.comp, resetElem, snapElem, h]
  | some o => simp [Function.comp, resetElem, snapElem, h]

theorem resetHighlights_markElems (terms : List String) (ex : Bool) (ns : List Transform) :
    ∀ (es : List HElem) (c : NormCache), FreshElems es →
      resetHighlights (markElems terms ex ns es c).1 = es
  | [], _, _ => rfl
  | e :: rest, c, h => by
      have he := h e (List.mem_cons_self e rest)
      have ih := resetHighlights_markElems terms ex ns rest
        (markNodes terms ex ns e.nodes c).2.1 (fun x hx => h x (List.mem_cons_of_mem e hx))
      simp only [markElems, resetHighlights, List.map_cons]
      have h1 : resetElem { e with nodes := (markNodes terms ex ns e.nodes c).1 } = e := by
        cases e with
        | mk nodes snap => simp only at he; simp [resetElem, he]
      rw [h1]
      simp only [resetHighlights] at ih
      rw [ih]

/-! ## C2: idempotence -/

/-- C2: for every container state, query and options, calling
`highlightMatches` twice in a row leaves the container (and the shared
normalization cache, and the returned `hasLocalMatch` flag) in exactly
the state one call produces: each pass resets to the pristine snapshot
before re-applying marks, and the second pass replays the first one's
normalizations from the cache. -/
theorem highlightMatches_idempotent (presets : PresetMap) (st : HighlightState)
    (query : String) (options : HighlightOptions) :
    highlightMatches presets (highlightMatches presets st query options).1 query options
      = highlightMatches presets st query options := by
  by_cases hq : jsTrim query = ""
  · simp only [highlightMatches, if_pos hq]
    rw [resetHighlights_fresh _ (fresh_snapshot_reset st.elems),
        snapshotOriginals_fresh _ (fresh_snapshot_reset st.elems)]
  · simp only [highlightMatches, if_neg hq]
    have hfresh : FreshElems (snapshotOriginals (resetHighlights st.elems)) :=
      fresh_snapshot_reset st.elems
    rw [resetHighlights_markElems _ _ _ _ _ hfresh, snapshotOriginals_fresh _ hfresh]
    rw [normalizeTerms_replay _ _ st.cache _ (markElems_extends _ _ _ _ _)]
    rw [markElems_replay _ _ _ _ _ _ (cacheExtends_refl _)]

/-! ## C3: round-trip -/

theorem snapInv_of_none : ∀ (es : List HElem), (∀ e ∈ es, e.snap = none) →
    SnapInv (es.map HElem.nodes) es
  | [], _ => List.Forall₂.nil
  | e :: rest, h =>
      List.Forall₂.cons (Or.inr ⟨h e (List.mem_cons_self e rest), rfl⟩)
        (snapInv_of_none rest (fun x hx => h x (List.mem_cons_of_mem e hx)))

theorem snapReset_exact {orig : List (List String)} {es : List HElem} (h : SnapInv orig es) :
    List.Forall₂ (fun o e => e = ⟨o, some o⟩) orig (snapshotOriginals (resetHighlights es)) := by
  induction h with
  | nil => exact List.Forall₂.nil
  | @cons o e os es' hrel _ ih =>
      simp only [resetHighlights, snapshotOriginals, List.map_cons]
      refine List.Forall₂.cons ?_ ?_
      · rcases hrel with hsome | ⟨hnone, hnodes⟩
        · cases e with
          | mk nodes snap => simp only at hsome; simp [resetElem, snapElem, hsome]
        · cases e with
          | mk nodes snap =>
              simp only at hnone hnodes
              simp [resetElem, snapElem, hnone, hnodes]
      · simpa [resetHighlights, snapshotOriginals] using ih

theorem markElems_snap_inv (terms : List String) (ex : Bool) (ns : List Transform) :
    ∀ {orig : List (List String)} {es : List HElem} (c : NormCache),
      List.Forall₂ (fun o e => e = ⟨o, some o⟩) orig es →
      SnapInv orig (markElems terms ex ns es c).1 := by
  intro orig es c h
  induction h generalizing c with
  | nil => exact List.Forall₂.nil
  | @cons o e os es' h1 _ ih =>
      simp only [markElems]
      refine List.Forall₂.cons ?_ (ih _)
      left
      rw [h1]

theorem resetHighlights_restore {orig : List (List String)} {es : List HElem}
    (h : SnapInv orig es) : (resetHighlights es).map HElem.nodes = orig := by
  induction h with
  | nil => rfl
  | @cons o e os es' h1 _ ih =>
      simp only [resetHighlights, List.map_cons] at ih ⊢
      have hhead : (resetElem e).nodes = o := by
        rcases h1 with hsome | ⟨hnone, hnodes⟩
        · cases e with
          | mk nodes snap => simp only at hsome; simp [resetElem, hsome]
        · cases e with
          | mk nodes snap => simp only at hnone hnodes; simp [resetElem, hnone, hnodes]
      rw [hhead, ih]

theorem highlightMatches_snapInv (presets : PresetMap) (q : String) (o : HighlightOptions)
    {orig : List (List String)} (st : HighlightState) (h : SnapInv orig st.elems) :
    SnapInv orig (highlightMatches presets st q o).1.elems := by
  have hx := snapReset_exact h
  by_cases hq : jsTrim q = ""
  · simp only [highlightMatches, if_pos hq]
    exact hx.imp (fun o e he => Or.inl (by rw [he]))
  · simp only [highlightMatches, if_neg hq]
    exact markElems_snap_inv _ _ _ _ hx

theorem applyHighlightCalls_snapInv (presets : PresetMap) {orig : List (List String)} :
    ∀ (calls : List (String × HighlightOptions)) (st : HighlightState),
      SnapInv orig st.elems → SnapInv orig (applyHighlightCalls presets calls st).elems
  | [], _, h => h
  | (q, o) :: rest, st, h => by
      simp only [applyHighlightCalls]
      exact applyHighlightCalls_snapInv presets rest _
        (highlightMatches_snapInv presets q o st h)

/-- C3: starting from a container none of whose elements has been
snapshotted yet, after any finite sequence of `highlightMatches` calls a
`resetHighlights` restores every contributing element's content
byte-for-byte to the original content captured on first encounter. -/
theorem highlight_reset_roundTrip (presets : PresetMap)
    (calls : List (String × HighlightOptions)) (st0 : HighlightState)
    (h : ∀ e ∈ st0.elems, e.snap = none) :
    (resetHighlights (applyHighlightCalls presets calls st0).elems).map HElem.nodes
      = st0.elems.map HElem.nodes :=
  resetHighlights_restore
    (applyHighlightCalls_snapInv presets calls st0 (snapInv_of_none st0.elems h))

/-- Witness for C3: two highlight passes over one element followed by a
reset restore the original text. -/
theorem highlight_reset_roundTrip_witness :
    (resetHighlights (applyHighlightCalls normalizerPresets
        [("man", ⟨false, true, .undef⟩), ("apple banana", ⟨true, false, .undef⟩)]
        ⟨[⟨["He is manly and a man."], none⟩], []⟩).elems).map HElem.nodes
      = [["He is manly and a man."]] :=
  highlight_reset_roundTrip normalizerPresets
    [("man", ⟨false, true, .undef⟩), ("apple banana", ⟨true, false, .undef⟩)]
    ⟨[⟨["He is manly and a man."], none⟩], []⟩ (by decide)

/-! ## C4: empty query -/

theorem snapshot_reset_rel : ∀ (es : List HElem),
    List.Forall₂ (fun (a b : HElem) => b.nodes = a.snap.getD a.nodes)
      es (snapshotOriginals (resetHighlights es))
  | [] => List.Forall₂.nil
  | e :: rest => by
      simp only [resetHighlights, snapshotOriginals, List.map_cons]
      refine List.Forall₂.cons ?_ ?_
      · cases h : e.snap <;> simp [resetElem, snapElem, h]
      · simpa [resetHighlights, snapshotOriginals] using snapshot_reset_rel rest

/-- C4: a call with an empty or whitespace-only query reports
`hasLocalMatch = false`, performs exactly the reset-and-snapshot phase
(leaving the cache untouched), and every element ends up showing its
previously snapshotted original content (its current content when no
snapshot existed yet) — in particular no `<mark>` wrapping survives. -/
theorem highlightMatches_emptyQuery (presets : PresetMap) (st : HighlightState)
    (query : String) (options : HighlightOptions) (h : jsTrim query = "") :
    (highlightMatches presets st query options).2 = false ∧
    (highlightMatches presets st query options).1
      = ⟨snapshotOriginals (resetHighlights st.elems), st.cache⟩ ∧
    List.Forall₂ (fun (a b : HElem) => b.nodes = a.snap.getD a.nodes)
      st.elems (highlightMatches presets st query options).1.elems := by
  refine ⟨?_, ?_, ?_⟩ <;> simp only [highlightMatches, if_pos h]
  exact snapshot_reset_rel st.elems

/-- Witness for C4: a whitespace-only query over a previously marked
element restores the snapshot and reports no match. -/
theorem highlightMatches_emptyQuery_witness :
    (highlightMatches normalizerPresets
        ⟨[⟨["He is <mark>man</mark>ly."], some ["He is manly."]⟩], []⟩ " " defaultOptions).2
      = false ∧
    (highlightMatches normalizerPresets
        ⟨[⟨["He is <mark>man</mark>ly."], some ["He is manly."]⟩], []⟩ " " defaultOptions).1
      = ⟨snapshotOriginals (resetHighlights
          [⟨["He is <mark>man</mark>ly."], some ["He is manly."]⟩]), []⟩ ∧
    List.Forall₂ (fun (a b : HElem) => b.nodes = a.snap.getD a.nodes)
      [⟨["He is <mark>man</mark>ly."], some ["He is manly."]⟩]
      (highlightMatches normalizerPresets
        ⟨[⟨["He is <mark>man</mark>ly."], some ["He is manly."]⟩], []⟩ " " defaultOptions).1.elems :=
  highlightMatches_emptyQuery normalizerPresets
    ⟨[⟨["He is <mark>man</mark>ly."], some ["He is manly."]⟩], []⟩ " " defaultOptions (by decide)

/-! ## C5: retained ranges and the non-overlap invariant -/

theorem dropOverlapping_ge : ∀ (ms : List MatchRange) (e : Nat) (m : MatchRange),
    m ∈ dropOverlapping e ms → e ≤ m.index
  | [], _, m, h => absurd h (List.not_mem_nil m)
  | x :: ms, e, m, h => by
      by_cases hx : e ≤ x.index
      · simp only [dropOverlapping, if_pos hx] at h
        rcases List.mem_cons.mp h with rfl | hm
        · exact hx
        · have := dropOverlapping_ge ms (x.index + x.length) m hm
          omega
      · simp only [dropOverlapping, if_neg hx] at h
        exact dropOverlapping_ge ms e m h

theorem dropOverlapping_chain : ∀ (ms : List MatchRange) (e : Nat),
    List.Chain' (fun a b => a.index + a.length ≤ b.index) (dropOverlapping e ms)
  | [], _ => List.chain'_nil
  | x :: ms, e => by
      by_cases hx : e ≤ x.index
      · simp only [dropOverlapping, if_pos hx]
        refine List.chain'_cons'.mpr ⟨?_, dropOverlapping_chain ms (x.index + x.length)⟩
        intro y hy
        exact dropOverlapping_ge ms _ y (List.mem_of_mem_head? hy)
      · simp only [dropOverlapping, if_neg hx]
        exact dropOverlapping_chain ms e

/-- C5: the ranges retained for marking are exactly the collected
per-term matches, sorted by start offset ascending, with any match whose
start lies strictly before the previously accepted match's end greedily
discarded; consequently adjacent retained ranges satisfy
`end ≤ next.start`. -/
theorem retainedRanges_spec (normText : List Char) (terms : List (List Char)) (exact : Bool) :
    retainedRanges normText terms exact
      = dropOverlapping 0 (sortByIndex (collectMatches normText exact terms)) ∧
    List.Chain' (fun a b => a.index + a.length ≤ b.index)
      (retainedRanges normText terms exact) :=
  ⟨rfl, dropOverlapping_chain _ 0⟩

/-! ## C6: exact-match boundaries -/

theorem termMatches_exact_aux (hay term : List Char) :
    ∀ (l : List Nat) (st : List MatchRange × Nat),
      (∀ m ∈ st.1, m.length = term.length ∧ exactBoundaryOk hay m.index term.length = true) →
      ∀ m ∈ (l.foldl
        (fun st i =>
          if decide (st.2 ≤ i) && matchAtStart term (hay.drop i) &&
              (!true || exactBoundaryOk hay i term.length)
          then (st.1 ++ [⟨i, term.length⟩], i + term.length)
          else st)
        st).1,
        m.length = term.length ∧ exactBoundaryOk hay m.index term.length = true
  | [], _, h => h
  | i :: l, st, h => by
      simp only [List.foldl_cons]
      refine termMatches_exact_aux hay term l _ ?_
      intro m hm
      by_cases hc : (decide (st.2 ≤ i) && matchAtStart term (hay.drop i) &&
          (!true || exactBoundaryOk hay i term.length)) = true
      · simp only [if_pos hc] at hm
        rcases List.mem_append.mp hm with hold | hnew
        · exact h m hold
        · rcases List.mem_singleton.mp hnew with rfl
          refine ⟨rfl, ?_⟩
          have := (Bool.and_eq_true _ _).mp hc
          simpa using this.2
      · simp only [if_neg hc] at hm
        exact h m hm

/-- C6: in exact mode every collected match has the term's length and
satisfies the non-word-character lookaround on both sides; in particular
marking `"man"` with `exactMatch: true` over `"He is manly and a man."`
wraps only the final `"man"`, not the one inside `"manly"`. -/
theorem exactMatch_boundary :
    (∀ (hay term : List Char) (m : MatchRange), m ∈ termMatches hay term true →
        m.length = term.length ∧
        (m.index = 0 ∨ isWordChar (hay.getD (m.index - 1) ' ') = false) ∧
        (hay.length ≤ m.index + m.length ∨
          isWordChar (hay.getD (m.index + m.length) ' ') = false)) ∧
    (getMarkedHTML "He is manly and a man." ["man"] true
        [⟨"defaultNormalize", defaultNormalize⟩] []).1
      = "He is manly and a <mark>man</mark>." := by
  constructor
  · intro hay term m hm
    have h := termMatches_exact_aux hay term (List.range hay.length) ([], 0)
      (fun m hm => absurd hm (List.not_mem_nil m)) m hm
    refine ⟨h.1, ?_⟩
    have hb := h.2
    rw [h.1]
    simp only [exactBoundaryOk, Bool.and_eq_true, Bool.or_eq_true,
      decide_eq_true_eq, Bool.not_eq_true'] at hb
    exact hb
  · decide

/-- Witness for C6: the retained exact-mode match of `"man"` in
`"he is manly and a man."` starts at offset 18, is preceded by a space
and followed by a period. -/
theorem exactMatch_boundary_witness :
    (3 : Nat) = "man".toList.length ∧
    ((18 : Nat) = 0 ∨ isWordChar ("he is manly and a man.".toList.getD 17 ' ') = false) ∧
    ("he is manly and a man.".toList.length ≤ 21 ∨
      isWordChar ("he is manly and a man.".toList.getD 21 ' ') = false) :=
  exactMatch_boundary.1 "he is manly and a man.".toList "man".toList ⟨18, 3⟩ (by decide)

/-! ## C7: preset registration -/

theorem any_notCallable_iff (items : List StepItem) :
    items.any (fun fn => !fn.isCallable) = true ↔ items.all StepItem.isCallable = false := by
  induction items with
  | nil => simp
  | cons x xs ih => cases hx : x.isCallable <;> simp [hx, ih]

/-- Counterexample for C7: the code accepts an empty steps array (it is
an array and vacuously all-callable), while the claim requires a throw
for every steps value that is not a *non-empty* array of callables. -/
theorem registerNormalizerPreset_emptyArray_ok :
    isThrow (registerNormalizerPreset [] "p" (.arr [])) = false ∧
    specNonEmptyArrayOfCallables (.arr []) = false :=
  ⟨rfl, rfl⟩

/-- C7 (amended): `registerNormalizerPreset` throws iff `steps` is not an
array whose elements are all callables (the empty array is accepted);
when it does not throw, the warning is emitted exactly when the name is
already registered, and the new steps shadow the old binding. -/
theorem registerNormalizerPreset_spec (presets : PresetMap) (name : String)
    (steps : StepsInput) :
    (isThrow (registerNormalizerPreset presets name steps) = true
        ↔ isArrayOfCallables steps = false) ∧
    (∀ items, steps = .arr items → items.all StepItem.isCallable = true →
        registerNormalizerPreset presets name steps
          = .ok ⟨(name, stepsTransforms items) :: presets,
                 (lookupPreset name presets).isSome⟩) := by
  constructor
  · cases steps with
    | notArray => simp [registerNormalizerPreset, isThrow, isArrayOfCallables]
    | arr items =>
        simp only [registerNormalizerPreset, isArrayOfCallables]
        by_cases h : items.any (fun fn => !fn.isCallable) = true
        · rw [if_pos h]
          simp [isThrow, (any_notCallable_iff items).mp h]
        · rw [if_neg h]
          have hall : items.all StepItem.isCallable = true := by
            cases hv : items.all StepItem.isCallable with
            | true => rfl
            | false => exact absurd ((any_notCallable_iff items).mpr hv) h
          simp [isThrow, hall]
  · intro items hsteps hall
    subst hsteps
    simp only [registerNormalizerPreset]
    rw [if_neg]
    intro hany
    exact absurd hall (by simp [(any_notCallable_iff items).mp hany])

/-- Witness for C7 (amended): registering a singleton chain over an
existing name succeeds, warns, and shadows the old binding. -/
theorem registerNormalizerPreset_spec_witness :
    registerNormalizerPreset [("a", [])] "a" (.arr [.callable ⟨"f", fun s => s⟩])
      = .ok ⟨("a", stepsTransforms [.callable ⟨"f", fun s => s⟩]) :: [("a", [])],
             (lookupPreset "a" [("a", [])]).isSome⟩ :=
  (registerNormalizerPreset_spec [("a", [])] "a" (.arr [.callable ⟨"f", fun s => s⟩])).2
    [.callable ⟨"f", fun s => s⟩] rfl (by decide)

/-! ## C8: memoized normalization -/

/-- Counterexample for C8: two behaviourally different anonymous
transform chains share the cache key `"[anon]::x"`, so after caching the
identity chain's result the constant chain returns the stale `"x"`
instead of its direct result `"y"` — the cache is not transparent. -/
theorem applyNormalizers_cache_not_transparent :
    (applyNormalizers "x" [⟨"", fun _ => "y"⟩]
        ((applyNormalizers "x" [⟨"", fun s => s⟩] []).2)).1 = "x" ∧
    runTransforms "x" [⟨"", fun _ => "y"⟩] = "y" :=
  ⟨rfl, rfl⟩

theorem cacheKey_inj {ns : List Transform} {s1 s2 : String}
    (h : cacheKey ns s1 = cacheKey ns s2) : s1 = s2 := by
  unfold cacheKey at h
  have hd := congrArg String.data h
  simp only [String.data_append] at hd
  exact String.ext (List.append_cancel_left hd)

/-- C8 (amended): provided every cache entry filed under this transform
chain's key holds the direct normalization result — which holds whenever
chains are keyed injectively by their joined names, and fails for the
colliding anonymous chains of the counterexample — the memoized
`applyNormalizers` returns exactly the direct application of the
transforms, and preserves that consistency. -/
theorem applyNormalizers_consistent (s : String) (ns : List Transform) (c : NormCache)
    (h : CacheConsistent c ns) :
    (applyNormalizers s ns c).1 = runTransforms s ns ∧
    CacheConsistent (applyNormalizers s ns c).2 ns := by
  unfold applyNormalizers
  cases hl : lookupCache (cacheKey ns s) c with
  | some v => exact ⟨h s v hl, h⟩
  | none =>
      refine ⟨rfl, ?_⟩
      intro s' v' hv'
      by_cases hk : cacheKey ns s = cacheKey ns s'
      · have hs : s = s' := cacheKey_inj hk
        subst hs
        have : (if cacheKey ns s = cacheKey ns s then some (runTransforms s ns)
            else lookupCache (cacheKey ns s) c) = some v' := hv'
        rw [if_pos rfl] at this
        exact (Option.some.inj this).symm
      · have : (if cacheKey ns s = cacheKey ns s' then some (runTransforms s ns)
            else lookupCache (cacheKey ns s') c) = some v' := hv'
        rw [if_neg hk] at this
        exact h s' v' this

/-- Witness for C8 (amended): on an empty cache (vacuously consistent)
the memoized application equals the direct one. -/
theorem applyNormalizers_consistent_witness :
    (applyNormalizers "abc" [⟨"id", fun s => s⟩] []).1
      = runTransforms "abc" [⟨"id", fun s => s⟩] ∧
    CacheConsistent (applyNormalizers "abc" [⟨"id", fun s => s⟩] []).2
      [⟨"id", fun s => s⟩] :=
  applyNormalizers_consistent "abc" [⟨"id", fun s => s⟩] []
    (fun _ _ hv => Option.noConfusion hv)

/-! ## C9: `setQuery` without options -/

/-- C9: calling `setQuery` with a falsy/omitted `options` argument leaves
the stored options map untouched (so every key's options are unchanged),
stores the value, and invokes the key's subscribers, in subscription
order, with the new value paired with the options previously stored for
the key (`none` when none were ever stored). -/
theorem setQuery_noOptions (key value : String) (st : QueryState) :
    (setQuery key value none st).1.queryOptions = st.queryOptions ∧
    (setQuery key value none st).1.queryStore = mapSet key value st.queryStore ∧
    (setQuery key value none st).1.listeners = st.listeners ∧
    (setQuery key value none st).2
      = ((mapGet key st.listeners).getD []).map
          (fun cb => ⟨cb, value, mapGet key st.queryOptions⟩) :=
  ⟨rfl, rfl, rfl, rfl⟩

/-! ## C10: unknown preset name -/

/-- Counterexample for C10: `"toString"` names no registered preset, yet
the property read yields the truthy inherited `Object.prototype.toString`,
the `|| default` fallback is not taken, and resolution produces the
inherited non-array member — on which highlighting then throws — not the
default preset's chain. -/
theorem resolveStringSpec_toString_inherited :
    lookupPreset "toString" normalizerPresets = none ∧
    resolveStringSpec "toString" normalizerPresets = .inheritedMember ∧
    resolveStringSpec "toString" normalizerPresets
      ≠ .chain (defaultPreset normalizerPresets) :=
  ⟨rfl, rfl, fun h => StringResolution.noConfusion h⟩

/-- C10 (amended): resolving a single-string spec that names neither a
registered preset nor an `Object.prototype` property yields the default
preset's transform chain — the chain an absent spec resolves to — so
highlighting then behaves exactly as with the default normalization; at
inherited names such as `"toString"` the truthy inherited member is
returned instead (and highlighting throws), per the counterexample. -/
theorem resolveStringSpec_unknownName_default (presets : PresetMap) (name : String)
    (h1 : lookupPreset name presets = none)
    (h2 : objectPrototypeProps.contains name = false) :
    resolveStringSpec name presets = .chain (defaultPreset presets) ∧
    resolveStringSpec name presets = .chain (resolveNormalizers .undef presets) := by
  have hmain : resolveStringSpec name presets = .chain (defaultPreset presets) := by
    by_cases hn : name = ""
    · simp [resolveStringSpec, hn]
    · have h2' : name ∉ objectPrototypeProps := by simpa using h2
      simp [resolveStringSpec, hn, readPresetProp, h1, h2']
  have hd : resolveNormalizers .undef presets = defaultPreset presets := by
    simp [resolveNormalizers, isFalsySpec]
  exact ⟨hmain, by rw [hmain, hd]⟩

/-- Witness for C10 (amended): `"unknown"` is neither registered nor
inherited from `Object.prototype` and resolves to the initial registry's
default chain. -/
theorem resolveStringSpec_unknownName_default_witness :
    resolveStringSpec "unknown" normalizerPresets
      = .chain (defaultPreset normalizerPresets) ∧
    resolveStringSpec "unknown" normalizerPresets
      = .chain (resolveNormalizers .undef normalizerPresets) :=
  resolveStringSpec_unknownName_default normalizerPresets "unknown" rfl (by decide)

/-! ## C1: ancestor propagation -/

theorem hasLocalMarkerList_notifyForest (q : String) :
    ∀ (ts : List TargetTree), hasLocalMarkerList (notifyForest q ts) = forestAnyLocal ts
  | [] => by simp [notifyForest, hasLocalMarkerList, forestAnyLocal]
  | .node lm cs :: ts => by
      have h1 := hasLocalMarkerList_notifyForest q cs
      have h2 := hasLocalMarkerList_notifyForest q ts
      simp only [notifyForest, hasLocalMarkerList, forestAnyLocal, h1, h2]

theorem forestFlagsOk_notifyForest (q : String) :
    ∀ (ts : List TargetTree), forestFlagsOk (notifyForest q ts) = true
  | [] => by simp [notifyForest, forestFlagsOk]
  | .node lm cs :: ts => by
      have h1 := forestFlagsOk_notifyForest q cs
      have h2 := forestFlagsOk_notifyForest q ts
      simp [notifyForest, forestFlagsOk, flagsOk, h1, h2]

/-- C1: when some nested target beneath the outer target `A` reports a
local match (e.g. the inner target `B` whose own text matched) and `A`
itself does not, then after the notification has been processed bottom-up
`A.hasShadowMatch` and `A.hasAnyMatch` are both true; moreover
`hasAnyMatch = hasLocalMatch || hasShadowMatch` holds at every target
after every update. -/
theorem ancestor_propagation (query : String) (children : List TargetTree)
    (h : forestAnyLocal children = true) :
    ((notifyTarget query (.node false children)).flags.hasShadowMatch = true ∧
     (notifyTarget query (.node false children)).flags.hasAnyMatch = true) ∧
    ∀ (q : String) (ts : List TargetTree), forestFlagsOk (notifyForest q ts) = true := by
  refine ⟨?_, fun q ts => forestFlagsOk_notifyForest q ts⟩
  have hs : hasLocalMarkerList (notifyForest query children) = true := by
    rw [hasLocalMarkerList_notifyForest query children]; exact h
  constructor
  · simpa [notifyTarget, SyncedTree.flags] using hs
  · simp [notifyTarget, SyncedTree.flags, hs]

/-- Witness for C1: an outer target with no local match containing one
inner target whose text matched. -/
theorem ancestor_propagation_witness :
    (notifyTarget "man" (.node false [.node true []])).flags.hasShadowMatch = true ∧
    (notifyTarget "man" (.node false [.node true []])).flags.hasAnyMatch = true :=
  (ancestor_propagation "man" [.node true []] (by simp [forestAnyLocal])).1

end QueryManager
